import Mathlib

/-!
Verification of the PCB-coil transient-analysis script
(src/coil_simulation.py).

The script derives lumped RLC parameters from coil geometry, builds a
second-order state-space model, simulates the capacitor discharge and
post-processes the output into field/current waveforms.  We embed the
arithmetic of the script over the reals, parameterised by the physical
inputs (the script fixes them as module constants; `refInputs` below is
that fixed configuration).
-/

namespace CoilSim

noncomputable section

/-- The physical inputs of the script (module-level constants in the
source, lines 38-51). -/
structure Inputs where
  t : ℝ
  w : ℝ
  s : ℝ
  n_series : ℝ
  C_coil : ℝ
  R_mosfet : ℝ
  numb_pcb : ℝ
  d_out : ℝ
  d_in : ℝ

/-- Copper resistivity in ohm-mm (line 32). -/
def p_copper : ℝ := 1.7 * 1e-5

/-- Permeability of free space in H/m (line 33). -/
def u_0 : ℝ := 4 * Real.pi * 1e-7

/-- Empirical inductance constant (line 34). -/
def K1 : ℝ := 2.34

/-- Empirical inductance constant (line 35). -/
def K2 : ℝ := 2.75

/-- The fixed configuration of the script: lines 38-44 and 50-51. -/
def refInputs : Inputs where
  t := 2 * 0.0348
  w := 1.75
  s := 0.25
  n_series := 2
  C_coil := 10e-3
  R_mosfet := 0.01
  numb_pcb := 10
  d_out := 100
  d_in := 20

/-- Replace the series-winding count, holding every other input fixed. -/
def withSeries (inp : Inputs) (n : ℝ) : Inputs := { inp with n_series := n }

/-- A degenerate geometry used to probe the summation: positive inner
diameter, positive pitch, outer diameter at most 100, but so little
radial room that the truncated turn count is zero. -/
def cexInputs : Inputs := { refInputs with d_in := 99, w := 25, s := 25 }

/-- Number of parallel coils, `numb_pcb * n_series / n_series` (line 47). -/
def n_parallel (inp : Inputs) : ℝ := inp.numb_pcb * inp.n_series / inp.n_series

/-- Turn count `N = (d_out - d_in) / (2 * (w + s))` (line 54). -/
def N (inp : Inputs) : ℝ := (inp.d_out - inp.d_in) / (2 * (inp.w + inp.s))

/-- Trace length `4 * (d_out + d_in) / 2 * (N + 1)` (line 57). -/
def lengthTrace (inp : Inputs) : ℝ :=
  4 * (inp.d_out + inp.d_in) / 2 * (N inp + 1)

/-- Composite coil inductance (line 60). -/
def L_coil (inp : Inputs) : ℝ :=
  (K1 * u_0 * (N inp) ^ 2 * (inp.d_out + inp.d_in) / 2) /
      (1 + K2 * (inp.d_out - inp.d_in) / (inp.d_out + inp.d_in)) / 1000 *
    inp.n_series ^ 2

/-- Single-layer coil inductance (line 61). -/
def L_coil_single (inp : Inputs) : ℝ :=
  (K1 * u_0 * (N inp) ^ 2 * (inp.d_out + inp.d_in) / 2) /
    (1 + K2 * (inp.d_out - inp.d_in) / (inp.d_out + inp.d_in)) / 1000

/-- Composite coil resistance (line 64). -/
def R_coil (inp : Inputs) : ℝ :=
  p_copper * lengthTrace inp / (inp.w * inp.t) * inp.n_series / n_parallel inp +
    inp.R_mosfet

/-- Single-layer coil resistance (line 65). -/
def R_coil_single (inp : Inputs) : ℝ :=
  p_copper * lengthTrace inp / (inp.w * inp.t)

/-- Python `int()` applied to the real turn count: truncation toward
zero (line 69, `range(int(N))`). -/
def intN (inp : Inputs) : ℤ := if 0 ≤ N inp then ⌊N inp⌋ else ⌈N inp⌉

/-- The inverse-distance summation
`a_inv_sum = Σ 1000 * n_series / (100 - 2 * (w + s) * i)` over
`i in range(int(N))` (lines 68-70). -/
def a_inv_sum (inp : Inputs) : ℝ :=
  ∑ i ∈ Finset.range (intN inp).toNat,
    1000 * inp.n_series / (100 - 2 * (inp.w + inp.s) * (i : ℝ))

/-- The field-coupling coefficient appearing in the output matrix and in
the current normalisation (lines 84 and 110):
`8 * 2**0.5 * u_0 / (4 * pi) * a_inv_sum`. -/
def kappa (inp : Inputs) : ℝ :=
  8 * Real.sqrt 2 * u_0 / (4 * Real.pi) * a_inv_sum inp

/-- State matrix `A = [[0, 1/C_coil], [-1/L_coil, -R_coil/L_coil]]`
(line 82). -/
def Amat (inp : Inputs) : Matrix (Fin 2) (Fin 2) ℝ :=
  ![![0, 1 / inp.C_coil], ![-1 / L_coil inp, -R_coil inp / L_coil inp]]

/-- Input matrix `B = [[0], [0]]` (line 83). -/
def Bmat : Matrix (Fin 2) (Fin 1) ℝ := ![![0], ![0]]

/-- Output matrix `C = [[0, 8 * 2**0.5 * u_0 / (4*pi) * a_inv_sum]]`
(line 84). -/
def Cmat (inp : Inputs) : Matrix (Fin 1) (Fin 2) ℝ :=
  ![![0, 8 * Real.sqrt 2 * u_0 / (4 * Real.pi) * a_inv_sum inp]]

/-- Feedthrough matrix `D = [[0]]` (line 85). -/
def Dmat : Matrix (Fin 1) (Fin 1) ℝ := ![![0]]

/-- Modelled from the spec: the state equation of the state-space system
assembled by the external `control` library (`ct.ss`, line 88), whose
code is not in the repository.  The state derivative of a linear system
is `A x + B u`. -/
def stateDeriv (inp : Inputs) (x : Fin 2 → ℝ) (u : Fin 1 → ℝ) : Fin 2 → ℝ :=
  (Amat inp).mulVec x + Bmat.mulVec u

/-- Modelled from the spec: the output equation of the state-space
system, `y = C x + D u`. -/
def outputEq (inp : Inputs) (x : Fin 2 → ℝ) (u : Fin 1 → ℝ) : Fin 1 → ℝ :=
  (Cmat inp).mulVec x + Dmat.mulVec u

/-- The magnetic-field waveform handed to the first plot: the negated
raw output series `-systemOutput3` (line 103). -/
def fieldSeries (raw : ℕ → ℝ) : ℕ → ℝ := fun k => -raw k

/-- The current waveform handed to the second plot:
`-systemOutput3 / (8 * 2**0.5 * u_0 / (4*pi) * a_inv_sum)` (line 110). -/
def currentSeries (inp : Inputs) (raw : ℕ → ℝ) : ℕ → ℝ :=
  fun k => -raw k / (8 * Real.sqrt 2 * u_0 / (4 * Real.pi) * a_inv_sum inp)

/-- Python `max(abs(arr))` over a nonempty series (the script applies it
to the 100000-sample output, line 98); on the empty list Python raises,
we return 0. -/
def pyMaxAbs : List ℝ → ℝ
  | [] => 0
  | y :: ys => ys.foldl (fun m z => max m |z|) |y|

/-- Reported peak field `max(abs(systemOutput3)) * 10000` (line 98). -/
def max_magnetic_field (ys : List ℝ) : ℝ := pyMaxAbs ys * 10000

end

end CoilSim

namespace CoilSim

/-! ### Helper lemmas -/

/-- The turn count of the reference geometry evaluates to 20. -/
lemma N_ref : N refInputs = 20 := by
  norm_num [N, refInputs]

lemma intN_ref : intN refInputs = 20 := by
  rw [intN, N_ref, if_pos (by norm_num)]
  rw [show (20 : ℝ) = ((20 : ℤ) : ℝ) by norm_num, Int.floor_intCast]

lemma lengthTrace_ref : lengthTrace refInputs = 5040 := by
  rw [lengthTrace, N_ref]; norm_num [refInputs]

lemma a_inv_sum_ref_pos : 0 < a_inv_sum refInputs := by
  rw [a_inv_sum, intN_ref]
  apply Finset.sum_pos
  · intro i hi
    simp only [Int.toNat_ofNat, Finset.mem_range] at hi
    have hle : (i : ℝ) ≤ 19 := by exact_mod_cast Nat.lt_succ_iff.mp hi
    apply div_pos
    · norm_num [refInputs]
    · have : 2 * (refInputs.w + refInputs.s) * (i : ℝ) ≤ 76 := by
        norm_num [refInputs]; linarith
      linarith
  · exact ⟨0, by norm_num⟩

lemma kappa_ref_pos : 0 < kappa refInputs := by
  rw [kappa]
  apply mul_pos _ a_inv_sum_ref_pos
  rw [u_0]
  have hpi := Real.pi_pos
  have hs2 : 0 < Real.sqrt 2 := Real.sqrt_pos.mpr (by norm_num)
  positivity

lemma L_coil_ref_pos : 0 < L_coil refInputs := by
  rw [L_coil, N_ref]
  have hpi := Real.pi_pos
  norm_num [refInputs, K1, K2, u_0]
  positivity

lemma L_single_ref_pos : 0 < L_coil_single refInputs := by
  rw [L_coil_single, N_ref]
  have hpi := Real.pi_pos
  norm_num [refInputs, K1, K2, u_0]
  positivity

lemma foldl_max_init_le (l : List ℝ) (a : ℝ) : a ≤ l.foldl max a := by
  induction l generalizing a with
  | nil => exact le_refl a
  | cons x xs ih =>
    exact le_trans (le_max_left a x) (ih (max a x))

lemma le_foldl_max_of_mem (l : List ℝ) :
    ∀ (a x : ℝ), x ∈ l → x ≤ l.foldl max a := by
  induction l with
  | nil => intro a x hx; cases hx
  | cons y ys ih =>
    intro a x hx
    rcases List.mem_cons.mp hx with h | h
    · subst h
      exact le_trans (le_max_right a x) (foldl_max_init_le ys (max a x))
    · exact ih (max a y) x h

lemma foldl_max_mem (l : List ℝ) (a : ℝ) :
    l.foldl max a = a ∨ l.foldl max a ∈ l := by
  induction l generalizing a with
  | nil => left; rfl
  | cons y ys ih =>
    rcases ih (max a y) with h | h
    · rcases max_choice a y with hm | hm
      · left; rw [List.foldl_cons, h, hm]
      · right; rw [List.foldl_cons, h, hm]; exact List.mem_cons_self y ys
    · right; exact List.mem_cons_of_mem y h

lemma pyMaxAbs_cons (y : ℝ) (l : List ℝ) :
    pyMaxAbs (y :: l) = (l.map (fun z => |z|)).foldl max |y| := by
  rw [pyMaxAbs, List.foldl_map]

/-! ### C1: turn count of the reference geometry -/

/-- C1 counterexample: for the reference geometry the turn count
`N = (d_out - d_in) / (2*(w+s))` does NOT equal 40; the formula yields
`80 / 4 = 20`. -/
theorem C1_counterexample : N refInputs ≠ 40 := by
  rw [N_ref]; norm_num

/-- C1 (amended): for the reference geometry d_out=100mm, d_in=20mm,
w=1.75mm, s=0.25mm, the turn count computed by the parameter deriver as
`N = (d_out - d_in) / (2*(w+s))` equals 20. -/
theorem C1_turn_count : N refInputs = 20 := N_ref

/-! ### C6: trace length of the reference geometry -/

/-- C6 counterexample: the trace length of the reference geometry is not
9840 mm; with N = 20 it is `4 * 60 * 21 = 5040` mm. -/
theorem C6_counterexample : lengthTrace refInputs ≠ 9840 := by
  rw [lengthTrace, N_ref]; norm_num [refInputs]

/-- C6 (amended): for the reference geometry the trace length
`4 * avg_diameter * (N+1)` with avg_diameter = (d_out+d_in)/2 = 60 and
N = 20 equals 5040 mm. -/
theorem C6_trace_length : lengthTrace refInputs = 5040 := lengthTrace_ref

/-! ### C2: the output matrix and the coupling coefficient -/

/-- C2: the output equation maps the current state (second state
component) to the magnetic field via the coupling coefficient
`kappa = 8*sqrt 2*u_0/(4*pi) * Σ 1000*n_series/(100-2*(w+s)*i)` over
i in [0, int N),
a finite sum over the truncated integer turn count. -/
theorem C2_output_matrix (inp : Inputs) (x : Fin 2 → ℝ) (u : Fin 1 → ℝ) :
    outputEq inp x u 0 = kappa inp * x 1 ∧
    kappa inp = 8 * Real.sqrt 2 * u_0 / (4 * Real.pi) *
      ∑ i ∈ Finset.range (intN inp).toNat,
        1000 * inp.n_series / (100 - 2 * (inp.w + inp.s) * (i : ℝ)) := by
  constructor
  · simp [outputEq, Cmat, Dmat, kappa, Matrix.mulVec, Matrix.dotProduct,
      Fin.sum_univ_two]
  · rfl

/-! ### C3: state-space matrices and zero-input dependence -/

/-- C3: the state matrix has row 1 = [0, 1/C], row 2 = [-1/L, -R/L], the
input matrix and feedthrough matrix are zero, and hence both the state
derivative and the output of the assembled system are independent of the
input signal: the simulated response depends only on the initial state. -/
theorem C3_state_space (inp : Inputs) :
    Amat inp 0 0 = 0 ∧ Amat inp 0 1 = 1 / inp.C_coil ∧
    Amat inp 1 0 = -1 / L_coil inp ∧ Amat inp 1 1 = -R_coil inp / L_coil inp ∧
    Bmat = 0 ∧ Dmat = 0 ∧
    ∀ x u1 u2, stateDeriv inp x u1 = stateDeriv inp x u2 ∧
      outputEq inp x u1 = outputEq inp x u2 := by
  refine ⟨rfl, rfl, rfl, rfl, ?_, ?_, ?_⟩
  · ext i j
    fin_cases j
    fin_cases i <;> simp [Bmat]
  · ext i j
    fin_cases i
    fin_cases j
    simp [Dmat]
  · intro x u1 u2
    constructor
    · funext i
      simp [stateDeriv, Bmat, Matrix.mulVec, Matrix.dotProduct,
        Fin.sum_univ_one]
    · funext i
      simp [outputEq, Dmat, Matrix.mulVec, Matrix.dotProduct,
        Fin.sum_univ_one]

/-! ### C4: the claimed current/field round-trip -/

/-- C4 counterexample: for the constant raw output series 1 at sample 0,
the reported current is `-1/kappa` while `-field/kappa` is `+1/kappa`;
since kappa is positive these differ, so `current(t) = -field(t)/kappa`
fails. -/
theorem C4_counterexample :
    currentSeries refInputs (fun _ => 1) 0 ≠
      -fieldSeries (fun _ => 1) 0 / kappa refInputs := by
  have hk := kappa_ref_pos
  have h1 : (0 : ℝ) < 1 / kappa refInputs := div_pos one_pos hk
  simp only [currentSeries, fieldSeries, neg_neg]
  rw [show 8 * Real.sqrt 2 * u_0 / (4 * Real.pi) * a_inv_sum refInputs =
    kappa refInputs from rfl]
  rw [neg_div]
  exact ne_of_lt (by linarith)

/-- C4 (amended): for every sampled time point the reported current
series satisfies `current(t) = field(t)/kappa` (not `-field(t)/kappa`):
the reported field is the negated raw output and the reported current is
the negated raw output divided by kappa. -/
theorem C4_roundtrip (inp : Inputs) (raw : ℕ → ℝ) (k : ℕ) :
    currentSeries inp raw k = fieldSeries raw k / kappa inp := rfl

/-! ### C5: post-processing of the raw output series -/

/-- C5: the post-processor produces the magnetic-field waveform as the
negation of the raw output series, and the current waveform as the field
waveform divided by the coupling coefficient kappa, at every sample. -/
theorem C5_postprocessing (inp : Inputs) (raw : ℕ → ℝ) (k : ℕ) :
    fieldSeries raw k = -raw k ∧
    currentSeries inp raw k = fieldSeries raw k / kappa inp :=
  ⟨rfl, rfl⟩

/-! ### C7: composite and single-layer resistance -/

/-- C7: the composite resistance is the trace resistance scaled by
n_series/n_parallel plus the switch resistance; the single-layer
resistance is the unscaled trace resistance; the state matrix uses the
composite value `-R_coil/L_coil`, and (at the reference inputs) that
entry differs from what the single-layer value would give, so
R_coil_single does not feed the circuit model. -/
theorem C7_resistance (inp : Inputs) :
    R_coil inp = p_copper * lengthTrace inp / (inp.w * inp.t) *
      inp.n_series / n_parallel inp + inp.R_mosfet ∧
    R_coil_single inp = p_copper * lengthTrace inp / (inp.w * inp.t) ∧
    Amat inp 1 1 = -R_coil inp / L_coil inp ∧
    Amat refInputs 1 1 ≠ -R_coil_single refInputs / L_coil refInputs := by
  refine ⟨rfl, rfl, rfl, ?_⟩
  have hL := L_coil_ref_pos
  have hR : R_coil refInputs ≠ R_coil_single refInputs := by
    rw [R_coil, R_coil_single, n_parallel, lengthTrace_ref]
    norm_num [refInputs, p_copper]
  show -R_coil refInputs / L_coil refInputs ≠
    -R_coil_single refInputs / L_coil refInputs
  intro h
  rw [div_eq_div_iff (ne_of_gt hL) (ne_of_gt hL)] at h
  exact hR (neg_injective (mul_right_cancel₀ (ne_of_gt hL) h))

/-! ### C8: scaling in the series-winding count -/

/-- C8: holding every other input fixed, the composite inductance equals
the single-layer inductance times n_series squared, and increasing
n_series (from at least one) strictly increases both the composite
inductance and the composite resistance. -/
theorem C8_monotone (inp : Inputs) (n1 n2 : ℝ)
    (hL : 0 < L_coil_single inp) (hw : 0 < inp.w) (ht : 0 < inp.t)
    (hlen : 0 < lengthTrace inp) (hp : 0 < inp.numb_pcb)
    (h1 : 1 ≤ n1) (h12 : n1 < n2) :
    (∀ n, L_coil (withSeries inp n) = L_coil_single inp * n ^ 2) ∧
    L_coil (withSeries inp n1) < L_coil (withSeries inp n2) ∧
    R_coil (withSeries inp n1) < R_coil (withSeries inp n2) := by
  have hn1 : (0 : ℝ) < n1 := lt_of_lt_of_le one_pos h1
  have hn2 : (0 : ℝ) < n2 := lt_trans hn1 h12
  have hscale : ∀ n, L_coil (withSeries inp n) = L_coil_single inp * n ^ 2 :=
    fun n => rfl
  refine ⟨hscale, ?_, ?_⟩
  · rw [hscale n1, hscale n2]
    exact mul_lt_mul_of_pos_left (by nlinarith) hL
  · have key : ∀ n : ℝ, n ≠ 0 → R_coil (withSeries inp n) =
        p_copper * lengthTrace inp / (inp.w * inp.t) * n / inp.numb_pcb +
          inp.R_mosfet := by
      intro n hn
      show p_copper * lengthTrace inp / (inp.w * inp.t) * n /
        (inp.numb_pcb * n / n) + inp.R_mosfet = _
      rw [mul_div_assoc inp.numb_pcb n n, div_self hn, mul_one]
    rw [key n1 (ne_of_gt hn1), key n2 (ne_of_gt hn2)]
    have hq : 0 < p_copper * lengthTrace inp / (inp.w * inp.t) :=
      div_pos (mul_pos (by norm_num [p_copper]) hlen) (mul_pos hw ht)
    exact add_lt_add_right
      ((div_lt_div_iff_of_pos_right hp).mpr (mul_lt_mul_of_pos_left h12 hq)) _

/-- C8 witness: at the reference configuration, going from one series
winding to two strictly increases both inductance and resistance. -/
theorem C8_witness :
    L_coil (withSeries refInputs 1) < L_coil (withSeries refInputs 2) ∧
    R_coil (withSeries refInputs 1) < R_coil (withSeries refInputs 2) := by
  have h := C8_monotone refInputs 1 2 L_single_ref_pos
    (by norm_num [refInputs]) (by norm_num [refInputs])
    (by rw [lengthTrace_ref]; norm_num) (by norm_num [refInputs])
    le_rfl one_lt_two
  exact ⟨h.2.1, h.2.2⟩

/-! ### C9: peak-field extraction -/

/-- C9: for every nonempty raw output series the reported peak field
`max(abs(raw)) * 10000` is an upper bound of `|y| * 10000` over the
samples and is attained by some sample; an all-zero series reports peak
0, and a single-sample series reports 10000 times that sample's
absolute value. -/
theorem C9_peak_field (ys : List ℝ) (hys : ys ≠ []) :
    (∀ y ∈ ys, |y| * 10000 ≤ max_magnetic_field ys) ∧
    (∃ y ∈ ys, max_magnetic_field ys = |y| * 10000) ∧
    ((∀ y ∈ ys, y = 0) → max_magnetic_field ys = 0) ∧
    ∀ z : ℝ, max_magnetic_field [z] = |z| * 10000 := by
  obtain ⟨y, l, rfl⟩ : ∃ y l, ys = y :: l := by
    cases ys with
    | nil => exact absurd rfl hys
    | cons y l => exact ⟨y, l, rfl⟩
  have hfold : max_magnetic_field (y :: l) =
      (l.map (fun z => |z|)).foldl max |y| * 10000 := by
    rw [max_magnetic_field, pyMaxAbs_cons]
  refine ⟨?_, ?_, ?_, ?_⟩
  · intro x hx
    rw [hfold]
    apply mul_le_mul_of_nonneg_right _ (by norm_num)
    rcases List.mem_cons.mp hx with h | h
    · subst h; exact foldl_max_init_le _ _
    · exact le_foldl_max_of_mem _ _ _ (List.mem_map_of_mem _ h)
  · rcases foldl_max_mem (l.map (fun z => |z|)) |y| with h | h
    · exact ⟨y, List.mem_cons_self y l, by rw [hfold, h]⟩
    · obtain ⟨x, hxl, hxe⟩ := List.mem_map.mp h
      exact ⟨x, List.mem_cons_of_mem y hxl, by rw [hfold, ← hxe]⟩
  · intro hz
    rw [hfold]
    rcases foldl_max_mem (l.map (fun z => |z|)) |y| with h | h
    · rw [h, hz y (List.mem_cons_self y l)]; norm_num
    · obtain ⟨x, hxl, hxe⟩ := List.mem_map.mp h
      rw [← hxe, hz x (List.mem_cons_of_mem y hxl)]; norm_num
  · intro z
    rw [max_magnetic_field, pyMaxAbs]
    simp

/-- C9 witness: the series [1, -3, 2] is nonempty, bounds the sample -3,
and reports peak 30000. -/
theorem C9_witness :
    |(-3 : ℝ)| * 10000 ≤ max_magnetic_field [(1 : ℝ), -3, 2] ∧
    max_magnetic_field [(7 : ℝ)] = |(7 : ℝ)| * 10000 := by
  have h := C9_peak_field [(1 : ℝ), -3, 2] (by simp)
  exact ⟨h.1 (-3) (by simp), h.2.2.2 7⟩

/-! ### C10: positivity of the summation denominators -/

/-- C10 counterexample: the inputs of `cexInputs` satisfy the claimed
precondition (positive inner diameter, positive pitch, outer diameter at
most 100), yet the truncated turn count is zero, the summation is empty
and `a_inv_sum = 0` is not positive: under the stated precondition alone
the sum need not be positive. -/
theorem C10_counterexample :
    0 < cexInputs.d_in ∧ 0 < cexInputs.w + cexInputs.s ∧
    cexInputs.d_out ≤ 100 ∧ ¬ 0 < a_inv_sum cexInputs := by
  have hN : N cexInputs = 1 / 100 := by
    rw [N]; norm_num [cexInputs, refInputs]
  have hint : intN cexInputs = 0 := by
    rw [intN, hN, if_pos (by norm_num)]
    rw [Int.floor_eq_zero_iff]
    constructor <;> norm_num
  refine ⟨by norm_num [cexInputs, refInputs], by norm_num [cexInputs, refInputs],
    by norm_num [cexInputs, refInputs], ?_⟩
  rw [a_inv_sum, hint, show (0 : ℤ).toNat = 0 from rfl, Finset.range_zero,
    Finset.sum_empty]
  exact lt_irrefl 0

/-- C10 (amended): under the precondition 0 < d_in, 0 < w + s and
d_out ≤ 100 every denominator `100 - 2*(w+s)*i` visited by the summation
for i in [0, int N) is strictly positive, so the sum never divides by
zero; the sum itself is positive provided additionally 0 < n_series and
the truncated turn count is at least 1; for the module's fixed inputs
(d_out=100, d_in=20, w+s=2, int N = 20) every denominator lies in
[24, 100]. -/
theorem C10_denominators (inp : Inputs) (hd : 0 < inp.d_in)
    (hws : 0 < inp.w + inp.s) (hout : inp.d_out ≤ 100) :
    (∀ i < (intN inp).toNat, 0 < 100 - 2 * (inp.w + inp.s) * (i : ℝ)) ∧
    (0 < inp.n_series → 1 ≤ intN inp → 0 < a_inv_sum inp) ∧
    (∀ i < (intN refInputs).toNat,
      24 ≤ 100 - 2 * (refInputs.w + refInputs.s) * (i : ℝ) ∧
      100 - 2 * (refInputs.w + refInputs.s) * (i : ℝ) ≤ 100) := by
  have hpos : ∀ i < (intN inp).toNat, 0 < 100 - 2 * (inp.w + inp.s) * (i : ℝ) := by
    intro i hi
    by_cases hN : 0 ≤ N inp
    · rw [intN, if_pos hN] at hi
      have hfloor : ((i : ℤ) + 1) ≤ ⌊N inp⌋ := by omega
      have hiN : (i : ℝ) + 1 ≤ N inp := by
        have h2 := Int.le_floor.mp hfloor
        push_cast at h2
        exact h2
      have hmul : 2 * (inp.w + inp.s) * (i : ℝ) <
          2 * (inp.w + inp.s) * N inp := by
        apply mul_lt_mul_of_pos_left (by linarith) (by linarith)
      have hNval : 2 * (inp.w + inp.s) * N inp = inp.d_out - inp.d_in := by
        rw [N, mul_div_cancel₀]
        linarith
      nlinarith
    · exfalso
      rw [intN, if_neg hN] at hi
      have hNneg : N inp < 0 := not_le.mp hN
      have hceil : ⌈N inp⌉ ≤ 0 := Int.ceil_le.mpr (by push_cast; linarith)
      omega
  refine ⟨hpos, ?_, ?_⟩
  · intro hn h1
    rw [a_inv_sum]
    apply Finset.sum_pos
    · intro i hi
      exact div_pos (by linarith) (hpos i (Finset.mem_range.mp hi))
    · refine ⟨0, Finset.mem_range.mpr ?_⟩
      omega
  · intro i hi
    rw [intN_ref] at hi
    have hi20 : i < 20 := by omega
    have hle : (i : ℝ) ≤ 19 := by exact_mod_cast Nat.lt_succ_iff.mp hi20
    have hge : (0 : ℝ) ≤ (i : ℝ) := Nat.cast_nonneg i
    constructor
    · norm_num [refInputs]; linarith
    · norm_num [refInputs]

/-- C10 witness: at the reference configuration the denominators are
positive and the inverse sum is positive. -/
theorem C10_witness : 0 < a_inv_sum refInputs :=
  (C10_denominators refInputs (by norm_num [refInputs])
    (by norm_num [refInputs]) (by norm_num [refInputs])).2.1
    (by norm_num [refInputs]) (by rw [intN_ref]; norm_num)

end CoilSim
